import Mathlib

/-!
Verification development for the SelectiveReact cog
(`src/selectivereact/selectivereact.py`).

The cog watches chat messages, matches configured trigger words with the
regex `\b{re.escape(word)}\b` (case-insensitive), and applies at most one
emoji reaction per message.  We shallowly embed the pure decision logic:

* strings are lists of natural-number codepoints (`Str`);
* Python's `\w`, `\s` and `str.lower` are modelled on their ASCII
  fragment (the registry, matcher and all concrete examples of the spec
  are ASCII; Python's Unicode extension of these classes is orthogonal
  to every property proved here);
* the `discord`/`redbot` I/O boundary (reaction posting, persistence,
  permission errors) is modelled by explicit booleans and result types;
* Python exceptions that escape a function are modelled with `Except`.
-/

namespace SelectiveReact

/-- A Python string, as its list of codepoints. -/
abbrev Str := List Nat

/-- Codepoints of a Lean string literal (used to state concrete examples). -/
def codes (s : String) : Str := s.data.map Char.toNat

/-- ASCII fragment of Python `str.lower` / `re.IGNORECASE` case folding:
uppercase letters `A`-`Z` map to `a`-`z`, everything else is fixed. -/
def foldA (c : Nat) : Nat := if 65 ≤ c ∧ c ≤ 90 then c + 32 else c

/-- ASCII fragment of Python's regex class `\w`: digits, letters, underscore. -/
def isWordCharA (c : Nat) : Bool :=
  decide ((48 ≤ c ∧ c ≤ 57) ∨ (65 ≤ c ∧ c ≤ 90) ∨ (97 ≤ c ∧ c ≤ 122) ∨ c = 95)

/-- ASCII fragment of Python's regex class `\s`. -/
def isSpaceA (c : Nat) : Bool := decide (c = 32 ∨ (9 ≤ c ∧ c ≤ 13))

/-- Python `word.lower()` (ASCII fragment). -/
def lowerStr (s : Str) : Str := s.map foldA

/-- Is the character at index `k` of `t` a word character?
Out-of-range positions (including the virtual positions before the start
and after the end of the string) count as non-word. -/
def wordAt (t : Str) (k : Nat) : Bool := isWordCharA (t.getD k 0)

/-- Python regex `\b` at position `k` of `t`: a word boundary holds where
exactly one side of the position is a word character (string edges count
as non-word). -/
def boundaryAt (t : Str) (k : Nat) : Bool :=
  (if k = 0 then false else wordAt t (k - 1)) != wordAt t k

/-- The literal (escaped) trigger word `w` occurs at position `i` of `t`,
compared case-insensitively — the atom `re.escape(word)` of the pattern
built by `get_pattern`, under `re.IGNORECASE`. -/
def occursAt (w t : Str) (i : Nat) : Bool :=
  i + w.length ≤ t.length && lowerStr ((t.drop i).take w.length) == lowerStr w

/-- The full pattern `\b{re.escape(word)}\b` of `get_pattern` matches at
position `i` of `t`. -/
def matchAt (w t : Str) (i : Nat) : Bool :=
  boundaryAt t i && occursAt w t i && boundaryAt t (i + w.length)

/-- Python `get_pattern(word).search(text)` finds a match: the pattern matches at
some position of `t`. -/
def searchWord (w t : Str) : Bool :=
  (List.range (t.length + 1)).any (fun i => matchAt w t i)

/-- The spec's characterisation of a firing occurrence (claim C1): the
occurrence is delimited by a non-word character or the string edge on
both sides. -/
def delimitedAt (w t : Str) (i : Nat) : Bool :=
  occursAt w t i && (if i = 0 then true else !wordAt t (i - 1)) && !wordAt t (i + w.length)

/-- Pattern `URL_REGEX = https?://\S+` matches starting at position `i` of `t`. -/
def urlAt (t : Str) (i : Nat) : Bool :=
  let r := t.drop i
  ((codes "http://").isPrefixOf r && !isSpaceA (r.getD 7 32)) ||
  ((codes "https://").isPrefixOf r && !isSpaceA (r.getD 8 32))

/-- Python `URL_REGEX.search(message.content)` is truthy. -/
def containsURL (t : Str) : Bool :=
  (List.range (t.length + 1)).any (fun i => urlAt t i)

/-! Registry and emoji resolution. -/

/-- The persisted per-guild `reactions` dict: emoji token → word list, in
insertion order (Python dicts preserve insertion order). -/
abbrev Registry := List (Str × List Str)

/-- A `discord.Emoji` object, as far as the cog inspects it. -/
structure EmojiObj where
  id : Nat
  name : Str
  animated : Bool
deriving DecidableEq, Repr

/-- Result of `fix_custom_emoji`: the literal string handed back unchanged,
a resolved custom-emoji object, or Python `None`. -/
inductive FixResult where
  | literal (s : Str)
  | custom (e : EmojiObj)
  | unresolved
deriving DecidableEq, Repr

/-- Python `str(n)` for a natural number. -/
def natStr (n : Nat) : Str := codes (toString n)

/-- Python `s.split` on a colon separator. -/
def splitColon : Str → List Str
  | [] => [[]]
  | c :: rest =>
    match splitColon rest with
    | [] => [[]]
    | s :: ss => if c = 58 then [] :: s :: ss else (c :: s) :: ss

/-- Model of `fix_custom_emoji(emoji)`: a token not starting with `<:` or `<a` is
returned as-is; otherwise the token's third colon-separated segment (with
its trailing `>` stripped) is compared against `str(e.id)` for every emoji
`e` of every guild of the bot (flattened here to `botEmojis`, preserving
order).  Indexing `emoji.split(":")[2]` raises `IndexError` — modelled as
`Except.error` — as soon as the loop body runs, i.e. when at least one
emoji exists. -/
def fixCustomEmoji (botEmojis : List EmojiObj) (emoji : Str) : Except Unit FixResult :=
  if emoji.take 2 ≠ codes "<:" ∧ emoji.take 2 ≠ codes "<a" then .ok (.literal emoji)
  else
    match botEmojis with
    | [] => .ok .unresolved
    | _ :: _ =>
      match (splitColon emoji)[2]? with
      | none => .error ()
      | some seg =>
        match botEmojis.find? (fun e => natStr e.id == seg.dropLast) with
        | some e => .ok (.custom e)
        | none => .ok .unresolved

/-- Python truthiness of a `fix_custom_emoji` result (`if not emoji_obj`):
`None` is falsy, an emoji object is truthy, a string is truthy iff
nonempty. -/
def truthy : FixResult → Bool
  | .literal s => !s.isEmpty
  | .custom _ => true
  | .unresolved => false

/-- Python `str(emoji)` on a `fix_custom_emoji` result: a string renders
as itself, an emoji object as `<:name:id>` (or `<a:name:id>` when
animated), `None` as `"None"`. -/
def strOfFix : FixResult → Str
  | .literal s => s
  | .custom e =>
      codes "<" ++ (if e.animated then codes "a" else []) ++ codes ":" ++
        e.name ++ codes ":" ++ natStr e.id ++ codes ">"
  | .unresolved => codes "None"

/-- Dict lookup `reactions[emoji]` (`None` when the key is absent). -/
def regGet (r : Registry) (e : Str) : Option (List Str) :=
  (r.find? (fun p => p.1 == e)).map (·.2)

/-- Dict write `reactions[emoji] = v`: replaces the value of an existing
key in place, otherwise appends the new key at the end (insertion order). -/
def regSet (r : Registry) (e : Str) (v : List Str) : Registry :=
  if r.any (fun p => p.1 == e) then r.map (fun p => if p.1 == e then (e, v) else p)
  else r ++ [(e, v)]

/-- Dict delete `del reactions[emoji]`. -/
def regDel (r : Registry) (e : Str) : Registry :=
  r.filter (fun p => p.1 != e)

/-- The chat reply a registry command sends. -/
inductive CmdReply where
  | added
  | alreadyExists
  | removed
  | notFound
  | unrecognized
deriving DecidableEq, Repr

/-- Model of `create_reaction(guild, word, emoji, message)`.  `probativeOk` models
whether the probative `message.add_reaction(emoji)` call succeeds; its
failure (`HTTPException`/`TypeError`/`ValueError`) is caught and reported
as "not an emoji I recognize" with nothing persisted.  On success the
registry key is `str(emoji)`; the word is stored lower-cased; a duplicate
(checked lower-cased) leaves the persisted registry unchanged. -/
def createReaction (probativeOk : Bool) (reactions : Registry) (word : Str)
    (emoji : FixResult) : Registry × CmdReply :=
  if !probativeOk then (reactions, .unrecognized)
  else
    let et := strOfFix emoji
    let w := lowerStr word
    let ws := (regGet reactions et).getD []
    if ws.contains w then (reactions, .alreadyExists)
    else (regSet reactions et (ws ++ [w]), .added)

/-- Model of `remove_reaction(guild, word, emoji, message)`.  Same probative
reaction first; a missing key or word reports "does not exist"; removing
the last word of an emoji deletes the emoji key entirely. -/
def removeReaction (probativeOk : Bool) (reactions : Registry) (word : Str)
    (emoji : FixResult) : Registry × CmdReply :=
  if !probativeOk then (reactions, .unrecognized)
  else
    let et := strOfFix emoji
    let w := lowerStr word
    match regGet reactions et with
    | none => (reactions, .notFound)
    | some ws =>
      if !ws.contains w then (reactions, .notFound)
      else
        let ws2 := ws.erase w
        if ws2.isEmpty then (regDel reactions et, .removed)
        else (regSet reactions et ws2, .removed)

/-- The `addreact` command body: `fix_custom_emoji` runs on the raw user
token *outside* any `try`, so its `IndexError` escapes; only then is
`create_reaction` entered. -/
def addreactCmd (botEmojis : List EmojiObj) (probativeOk : Bool) (reactions : Registry)
    (word rawEmoji : Str) : Except Unit (Registry × CmdReply) :=
  (fixCustomEmoji botEmojis rawEmoji).map (fun e => createReaction probativeOk reactions word e)

/-- The `delreact` command body, analogous to `addreactCmd`. -/
def delreactCmd (botEmojis : List EmojiObj) (probativeOk : Bool) (reactions : Registry)
    (word rawEmoji : Str) : Except Unit (Registry × CmdReply) :=
  (fixCustomEmoji botEmojis rawEmoji).map (fun e => removeReaction probativeOk reactions word e)

/-- Model of `clean_dead_emojis(guild)`: keep exactly the entries whose key still
resolves truthily; a resolution `IndexError` on any key propagates. -/
def cleanDeadEmojis (botEmojis : List EmojiObj) : Registry → Except Unit Registry
  | [] => .ok []
  | (e, ws) :: rest =>
    match fixCustomEmoji botEmojis e with
    | .error u => .error u
    | .ok r => (cleanDeadEmojis botEmojis rest).map
        (fun r2 => if truthy r then (e, ws) :: r2 else r2)

/-! The message listener. -/

/-- The fields of an incoming `discord.Message` the listener inspects
(`cogDisabled` stands for `bot.cog_disabled_in_guild`). -/
structure MsgCtx where
  content : Str
  inGuild : Bool
  authorIsBot : Bool
  cogDisabled : Bool
  authorRoleIds : List Nat
deriving DecidableEq, Repr

/-- The per-guild persisted configuration. -/
structure GuildConf where
  reactions : Registry
  reactRole : Option Nat
deriving DecidableEq, Repr

/-- What the listener did to the message. -/
inductive Action where
  | noAction
  | reactApplied (e : FixResult)
  | forbiddenSwallowed (e : FixResult)
deriving DecidableEq, Repr

/-- Outcome of one `on_message` run: the action taken and the guild
registry afterwards.  The listener sends no chat message on any path. -/
structure DispatchOut where
  action : Action
  reactions : Registry
deriving DecidableEq, Repr

/-- The nested matching loops of `on_message`: first emoji (registry
order) with a matching word wins; which word matched is discarded. -/
def matchFirst : Registry → Str → Option Str
  | [], _ => none
  | (e, ws) :: rest, c =>
    if ws.any (fun w => searchWord w c) then some e else matchFirst rest c

/-- Model of `on_message(message)`.  `forbidden` models `discord.errors.Forbidden`
being raised by `message.add_reaction`; it is swallowed.  A dead (falsy)
resolution triggers `clean_dead_emojis` and returns without reacting. -/
def onMessage (botEmojis : List EmojiObj) (forbidden : Bool) (conf : GuildConf)
    (msg : MsgCtx) : Except Unit DispatchOut :=
  if !msg.inGuild then .ok ⟨.noAction, conf.reactions⟩
  else if msg.authorIsBot then .ok ⟨.noAction, conf.reactions⟩
  else if msg.cogDisabled then .ok ⟨.noAction, conf.reactions⟩
  else if containsURL msg.content then .ok ⟨.noAction, conf.reactions⟩
  else if (match conf.reactRole with
           | some rid => !msg.authorRoleIds.contains rid
           | none => false) then .ok ⟨.noAction, conf.reactions⟩
  else if conf.reactions.isEmpty then .ok ⟨.noAction, conf.reactions⟩
  else
    match matchFirst conf.reactions msg.content with
    | none => .ok ⟨.noAction, conf.reactions⟩
    | some et =>
      match fixCustomEmoji botEmojis et with
      | .error u => .error u
      | .ok r =>
        if !truthy r then
          (cleanDeadEmojis botEmojis conf.reactions).map (fun r2 => ⟨.noAction, r2⟩)
        else if forbidden then .ok ⟨.forbiddenSwallowed r, conf.reactions⟩
        else .ok ⟨.reactApplied r, conf.reactions⟩

/-- The pair listing of `listreact`: grouped by emoji (registry order),
then word insertion order. -/
def listTriggers (r : Registry) : List (Str × Str) :=
  r.flatMap (fun p => p.2.map (fun w => (p.1, w)))

/-! Theorems about the embedded program. -/

/-- Claim C4: for both the add-trigger and remove-trigger commands, a
failing probative reaction (unrecognized/unusable emoji) reports the
error and aborts the mutation: the persisted registry is returned
unchanged and no partial entry is written. -/
theorem unrecognized_emoji_aborts_mutation :
    ∀ (r : Registry) (w : Str) (e : FixResult),
      createReaction false r w e = (r, .unrecognized) ∧
      removeReaction false r w e = (r, .unrecognized) :=
  fun _ _ _ => ⟨rfl, rfl⟩

/-- Claim C8: a message whose text contains a scheme-prefixed URL token
never gets a reaction — `on_message` returns with no action and the
registry untouched — even when a matching trigger word is present
(witnessed by the concrete example of the spec). -/
theorem url_suppression :
    (∀ (B : List EmojiObj) (f : Bool) (conf : GuildConf) (msg : MsgCtx),
       containsURL msg.content = true →
       onMessage B f conf msg = .ok ⟨.noAction, conf.reactions⟩) ∧
    containsURL (codes "check http://example.com pizza") = true ∧
    searchWord (codes "pizza") (codes "check http://example.com pizza") = true ∧
    onMessage [] false ⟨[(codes "🍕", [codes "pizza"])], none⟩
      ⟨codes "check http://example.com pizza", true, false, false, []⟩ =
      .ok ⟨.noAction, [(codes "🍕", [codes "pizza"])]⟩ := by
  refine ⟨?_, by decide, by decide, by rfl⟩
  intro B f conf msg h
  unfold onMessage
  rw [h]
  cases hg : msg.inGuild <;> cases hb : msg.authorIsBot <;> cases hd : msg.cogDisabled <;> simp

/-- Witness for claim C8 at a concrete input. -/
theorem url_suppression_witness :
    onMessage [] true ⟨[(codes "🎉", [codes "party"])], none⟩
      ⟨codes "see https://a.b party", true, false, false, []⟩ =
      .ok ⟨.noAction, [(codes "🎉", [codes "party"])]⟩ :=
  url_suppression.1 [] true ⟨[(codes "🎉", [codes "party"])], none⟩
    ⟨codes "see https://a.b party", true, false, false, []⟩ (by decide)

/-- Claim C10: `fix_custom_emoji` is not total.  On the input `"<a"`
(which passes the `emoji[:2]` shape test but has fewer than three
colon-separated segments) it raises `IndexError` as soon as the bot can
see at least one custom emoji, and both `addreact` and `delreact` call it
on the raw user token before entering their `try` block, so the error
escapes the commands' error reporting (no `CmdReply` is ever produced). -/
theorem fix_custom_emoji_index_error :
    fixCustomEmoji [⟨7, codes "x", false⟩] (codes "<a") = .error () ∧
    ∀ (p : Bool) (r : Registry) (w : Str),
      addreactCmd [⟨7, codes "x", false⟩] p r w (codes "<a") = .error () ∧
      delreactCmd [⟨7, codes "x", false⟩] p r w (codes "<a") = .error () :=
  ⟨rfl, fun _ _ _ => ⟨rfl, rfl⟩⟩

/-- Claim C7: the role gate.  With `react_role` set, an author without
the role never gets a reaction (the listener exits with no action and no
registry change); an author holding the role is gated through: the run is
identical to a run with no restriction at all.  The gate only inspects
the author's own role list, so a vanished role — held by no member —
filters every message out rather than raising.  The closed conjunct
shows an author holding the role does get the reaction on a match. -/
theorem role_gate :
    (∀ (B : List EmojiObj) (f : Bool) (conf : GuildConf) (msg : MsgCtx) (rid : Nat),
       conf.reactRole = some rid → msg.authorRoleIds.contains rid = false →
       onMessage B f conf msg = .ok ⟨.noAction, conf.reactions⟩) ∧
    (∀ (B : List EmojiObj) (f : Bool) (reactions : Registry) (msg : MsgCtx) (rid : Nat),
       msg.authorRoleIds.contains rid = true →
       onMessage B f ⟨reactions, some rid⟩ msg = onMessage B f ⟨reactions, none⟩ msg) ∧
    onMessage [] false ⟨[(codes "🍕", [codes "pizza"])], some 42⟩
      ⟨codes "pizza", true, false, false, [42]⟩ =
      .ok ⟨.reactApplied (.literal (codes "🍕")), [(codes "🍕", [codes "pizza"])]⟩ := by
  refine ⟨?_, ?_, by rfl⟩
  · intro B f conf msg rid hrole h
    have h' : rid ∉ msg.authorRoleIds := by simpa using h
    unfold onMessage
    rw [hrole]
    cases hg : msg.inGuild <;> cases hb : msg.authorIsBot <;> cases hd : msg.cogDisabled <;>
      cases hu : containsURL msg.content <;> simp [h']
  · intro B f reactions msg rid h
    have h' : rid ∈ msg.authorRoleIds := by simpa using h
    unfold onMessage
    simp [h']

/-- Witness for claim C7 at a concrete input. -/
theorem role_gate_witness :
    onMessage [] false ⟨[(codes "🍕", [codes "pizza"])], some 42⟩
      ⟨codes "pizza", true, false, false, [5]⟩ =
      .ok ⟨.noAction, [(codes "🍕", [codes "pizza"])]⟩ :=
  role_gate.1 [] false ⟨[(codes "🍕", [codes "pizza"])], some 42⟩
    ⟨codes "pizza", true, false, false, [5]⟩ 42 rfl (by decide)

/-- Claim C9: when the platform forbids the reaction during automatic
matching, the dispatcher swallows the `Forbidden` error and terminates:
the result records the swallowed attempt, the registry is returned
unchanged, and — `DispatchOut` carrying no chat output — no user-visible
message is produced and nothing is retried. -/
theorem forbidden_swallowed :
    ∀ (B : List EmojiObj) (conf : GuildConf) (msg : MsgCtx) (et : Str) (r : FixResult),
      msg.inGuild = true → msg.authorIsBot = false → msg.cogDisabled = false →
      containsURL msg.content = false →
      (∀ rid, conf.reactRole = some rid → msg.authorRoleIds.contains rid = true) →
      matchFirst conf.reactions msg.content = some et →
      fixCustomEmoji B et = .ok r → truthy r = true →
      onMessage B true conf msg = .ok ⟨.forbiddenSwallowed r, conf.reactions⟩ := by
  intro B conf msg et r hg hb hd hu hrole hm hfix ht
  have hne : conf.reactions.isEmpty = false := by
    cases hr : conf.reactions with
    | nil => rw [hr] at hm; simp [matchFirst] at hm
    | cons p rest => simp [hr]
  unfold onMessage
  rw [hg, hb, hd, hu, hne]
  cases hrr : conf.reactRole with
  | none => simp [hm, hfix, ht]
  | some rid =>
    have h' : rid ∈ msg.authorRoleIds := by simpa using hrole rid hrr
    simp [hm, hfix, ht, h']

/-- Witness for claim C9 at a concrete input. -/
theorem forbidden_swallowed_witness :
    onMessage [] true ⟨[(codes "🍕", [codes "pizza"])], none⟩
      ⟨codes "pizza", true, false, false, []⟩ =
      .ok ⟨.forbiddenSwallowed (.literal (codes "🍕")), [(codes "🍕", [codes "pizza"])]⟩ :=
  forbidden_swallowed [] ⟨[(codes "🍕", [codes "pizza"])], none⟩
    ⟨codes "pizza", true, false, false, []⟩ (codes "🍕") (.literal (codes "🍕"))
    rfl rfl rfl (by decide) (fun rid h => Option.noConfusion h) (by decide) rfl rfl

/-- A successful `clean_dead_emojis` run keeps exactly the entries whose
key still resolves to something truthy. -/
theorem cleanDeadEmojis_ok_eq_filter (B : List EmojiObj) :
    ∀ (r r' : Registry), cleanDeadEmojis B r = .ok r' →
      r' = r.filter (fun p =>
        match fixCustomEmoji B p.1 with | .ok x => truthy x | .error _ => false) := by
  intro r
  induction r with
  | nil => intro r' h; simp [cleanDeadEmojis] at h; simp [h]
  | cons p rest ih =>
    intro r' h
    obtain ⟨e, ws⟩ := p
    unfold cleanDeadEmojis at h
    cases hfix : fixCustomEmoji B e with
    | error u => rw [hfix] at h; exact absurd h (by simp)
    | ok x =>
      rw [hfix] at h
      cases hrest : cleanDeadEmojis B rest with
      | error u => rw [hrest] at h; exact absurd h (by simp [Except.map])
      | ok r2 =>
        rw [hrest] at h
        simp only [Except.map, Except.ok.injEq] at h
        rw [List.filter_cons]
        cases ht : truthy x with
        | true => simp only [hfix, ht] at h ⊢; simp [← h, ih r2 hrest]
        | false => simp only [hfix, ht] at h ⊢; simp [← h, ih r2 hrest]

/-- Claim C3: when the first matching emoji token fails to resolve
(falsy resolution), the dispatcher performs a full sweep: the registry
afterwards is exactly the original filtered to its still-resolvable
entries, no reaction is applied, and the run terminates there — no
further matching is attempted for that message. -/
theorem dead_emoji_cleanup :
    ∀ (B : List EmojiObj) (f : Bool) (conf : GuildConf) (msg : MsgCtx) (et : Str)
      (r : FixResult) (reg2 : Registry),
      msg.inGuild = true → msg.authorIsBot = false → msg.cogDisabled = false →
      containsURL msg.content = false →
      (∀ rid, conf.reactRole = some rid → msg.authorRoleIds.contains rid = true) →
      matchFirst conf.reactions msg.content = some et →
      fixCustomEmoji B et = .ok r → truthy r = false →
      cleanDeadEmojis B conf.reactions = .ok reg2 →
      onMessage B f conf msg = .ok ⟨.noAction, reg2⟩ ∧
      reg2 = conf.reactions.filter (fun p =>
        match fixCustomEmoji B p.1 with | .ok x => truthy x | .error _ => false) := by
  intro B f conf msg et r reg2 hg hb hd hu hrole hm hfix ht hclean
  refine ⟨?_, cleanDeadEmojis_ok_eq_filter B conf.reactions reg2 hclean⟩
  have hne : conf.reactions.isEmpty = false := by
    cases hr : conf.reactions with
    | nil => rw [hr] at hm; simp [matchFirst] at hm
    | cons p rest => simp [hr]
  unfold onMessage
  rw [hg, hb, hd, hu, hne]
  cases hrr : conf.reactRole with
  | none => simp [hm, hfix, ht, hclean, Except.map]
  | some rid =>
    have h' : rid ∈ msg.authorRoleIds := by simpa using hrole rid hrr
    simp [hm, hfix, ht, hclean, h', Except.map]

/-- Witness for claim C3 at a concrete input: a stored custom-emoji token
whose id is gone (the bot sees no custom emojis) is swept out when a
message matches its trigger word, and the valid literal entry survives. -/
theorem dead_emoji_cleanup_witness :
    onMessage [] false ⟨[(codes "<:x:5>", [codes "pizza"]), (codes "🎉", [codes "party"])], none⟩
      ⟨codes "pizza", true, false, false, []⟩ =
      .ok ⟨.noAction, [(codes "🎉", [codes "party"])]⟩ ∧
    [(codes "🎉", [codes "party"])] =
      ([(codes "<:x:5>", [codes "pizza"]), (codes "🎉", [codes "party"])] : Registry).filter
        (fun p => match fixCustomEmoji [] p.1 with | .ok x => truthy x | .error _ => false) :=
  dead_emoji_cleanup [] false
    ⟨[(codes "<:x:5>", [codes "pizza"]), (codes "🎉", [codes "party"])], none⟩
    ⟨codes "pizza", true, false, false, []⟩ (codes "<:x:5>") .unresolved
    [(codes "🎉", [codes "party"])]
    rfl rfl rfl (by decide) (fun rid h => Option.noConfusion h) (by decide) rfl rfl rfl

/-- The matching loops return `none` exactly when no stored word of any
entry matches the message text. -/
theorem matchFirst_eq_none (c : Str) :
    ∀ r : Registry, matchFirst r c = none ↔ ∀ p ∈ r, ∀ w ∈ p.2, searchWord w c = false := by
  intro r
  induction r with
  | nil => simp [matchFirst]
  | cons q rest ih =>
    obtain ⟨e', ws'⟩ := q
    unfold matchFirst
    by_cases h : ws'.any (fun w => searchWord w c) = true
    · rw [if_pos h]
      obtain ⟨w, hw, hs⟩ := List.any_eq_true.mp h
      constructor
      · intro hc; exact absurd hc (by simp)
      · intro hall
        rw [hall (e', ws') (by simp) w hw] at hs
        exact absurd hs (by simp)
    · rw [if_neg h, ih]
      have hall' : ∀ w ∈ ws', searchWord w c = false := by
        intro w hw
        cases hs : searchWord w c with
        | false => rfl
        | true => exact absurd (List.any_eq_true.mpr ⟨w, hw, hs⟩) h
      constructor
      · intro hr p hp w hw
        rcases List.mem_cons.mp hp with hp | hp
        · subst hp; exact hall' w hw
        · exact hr p hp w hw
      · intro hall p hp w hw
        exact hall p (List.mem_cons_of_mem _ hp) w hw

/-- The matching loops return `some e` exactly when the registry splits
as `pre ++ (e, ws) :: rest` with no word of any earlier entry matching
and some word of `ws` matching: the first entry, in registry insertion
order, with a matching word wins, and the matching word is discarded. -/
theorem matchFirst_eq_some (c : Str) :
    ∀ (r : Registry) (e : Str),
      matchFirst r c = some e ↔
        ∃ ws pre rest, r = pre ++ (e, ws) :: rest ∧
          (∀ p ∈ pre, ∀ w ∈ p.2, searchWord w c = false) ∧
          ∃ w ∈ ws, searchWord w c = true := by
  intro r
  induction r with
  | nil =>
    intro e
    constructor
    · intro hc; exact absurd hc (by simp [matchFirst])
    · rintro ⟨ws, pre, rest, hdec, -, -⟩
      cases pre <;> simp at hdec
  | cons q rest' ih =>
    intro e
    obtain ⟨e', ws'⟩ := q
    unfold matchFirst
    by_cases h : ws'.any (fun w => searchWord w c) = true
    · rw [if_pos h]
      constructor
      · intro hsome
        have he : e' = e := by injection hsome
        subst he
        exact ⟨ws', [], rest', rfl, by simp, List.any_eq_true.mp h⟩
      · rintro ⟨ws, pre, rest, hdec, hpre, -⟩
        cases pre with
        | nil =>
          simp only [List.nil_append, List.cons.injEq, Prod.mk.injEq] at hdec
          rw [hdec.1.1]
        | cons p0 pre' =>
          simp only [List.cons_append, List.cons.injEq] at hdec
          obtain ⟨w, hw, hs⟩ := List.any_eq_true.mp h
          have hf : searchWord w c = false :=
            hpre p0 (by simp) w (by rw [← hdec.1]; exact hw)
          rw [hf] at hs
          exact absurd hs (by simp)
    · rw [if_neg h, ih e]
      have hall' : ∀ w ∈ ws', searchWord w c = false := by
        intro w hw
        cases hs : searchWord w c with
        | false => rfl
        | true => exact absurd (List.any_eq_true.mpr ⟨w, hw, hs⟩) h
      constructor
      · rintro ⟨ws, pre, rest, hdec, hpre, hex⟩
        refine ⟨ws, (e', ws') :: pre, rest, by rw [hdec, List.cons_append], ?_, hex⟩
        intro p hp w hw
        rcases List.mem_cons.mp hp with hp | hp
        · subst hp; exact hall' w hw
        · exact hpre p hp w hw
      · rintro ⟨ws, pre, rest, hdec, hpre, hex⟩
        cases pre with
        | nil =>
          simp only [List.nil_append, List.cons.injEq, Prod.mk.injEq] at hdec
          obtain ⟨w, hw, hs⟩ := hex
          rw [hall' w (by rw [hdec.1.2]; exact hw)] at hs
          exact absurd hs (by simp)
        | cons p0 pre' =>
          simp only [List.cons_append, List.cons.injEq] at hdec
          exact ⟨ws, pre', rest, hdec.2, fun p hp w hw => hpre p (by simp [hp]) w hw, hex⟩

/-- Claim C2: the matcher scans entries in registry insertion order and
returns the emoji of the first entry with a matching word (the word
itself is discarded); as a pure function of the registry snapshot and
text the result is deterministic, the `Option` result carries at most
one emoji per message, and on registry `{🍕: [pizza], 🎉: [party]}` with
text `"pizza party"` the dispatcher always reacts with 🍕 alone. -/
theorem matcher_first_emoji_wins :
    (∀ (r : Registry) (c e : Str),
       matchFirst r c = some e ↔
         ∃ ws pre rest, r = pre ++ (e, ws) :: rest ∧
           (∀ p ∈ pre, ∀ w ∈ p.2, searchWord w c = false) ∧
           ∃ w ∈ ws, searchWord w c = true) ∧
    (∀ (r : Registry) (c : Str),
       matchFirst r c = none ↔ ∀ p ∈ r, ∀ w ∈ p.2, searchWord w c = false) ∧
    matchFirst [(codes "🍕", [codes "pizza"]), (codes "🎉", [codes "party"])]
      (codes "pizza party") = some (codes "🍕") ∧
    onMessage [] false ⟨[(codes "🍕", [codes "pizza"]), (codes "🎉", [codes "party"])], none⟩
      ⟨codes "pizza party", true, false, false, []⟩ =
      .ok ⟨.reactApplied (.literal (codes "🍕")),
        [(codes "🍕", [codes "pizza"]), (codes "🎉", [codes "party"])]⟩ :=
  ⟨fun r c e => matchFirst_eq_some c r e, fun r c => matchFirst_eq_none c r, by decide, by rfl⟩

/-- The invariant of claim C5: no emoji key maps to an empty word list. -/
def noEmptyEntry (r : Registry) : Prop := ∀ p ∈ r, p.2 ≠ []

theorem noEmptyEntry_regSet {r : Registry} {e : Str} {v : List Str}
    (hr : noEmptyEntry r) (hv : v ≠ []) : noEmptyEntry (regSet r e v) := by
  unfold regSet
  split
  · intro p hp
    rcases List.mem_map.mp hp with ⟨q, hq, rfl⟩
    by_cases hqe : (q.1 == e) = true
    · simp only [hqe, if_true]; exact hv
    · simp only [hqe, if_false, Bool.false_eq_true]; exact hr q hq
  · intro p hp
    rcases List.mem_append.mp hp with hp | hp
    · exact hr p hp
    · simp only [List.mem_singleton] at hp; rw [hp]; exact hv

theorem noEmptyEntry_regDel {r : Registry} {e : Str} (hr : noEmptyEntry r) :
    noEmptyEntry (regDel r e) :=
  fun p hp => hr p (List.mem_of_mem_filter hp)

/-- Claim C5: the no-empty-word-set invariant holds after every registry
operation — `addreact` and `delreact` preserve it from any state
satisfying it — and removing the last word under an emoji deletes the
emoji key entirely, so the `listreact` listing afterwards has no trace
of that emoji. -/
theorem no_empty_word_sets :
    (∀ (pOk : Bool) (r : Registry) (w : Str) (e : FixResult), noEmptyEntry r →
       noEmptyEntry (createReaction pOk r w e).1 ∧ noEmptyEntry (removeReaction pOk r w e).1) ∧
    (∀ (r : Registry) (w : Str) (e : FixResult),
       regGet r (strOfFix e) = some [lowerStr w] →
       ∀ pr ∈ listTriggers (removeReaction true r w e).1, pr.1 ≠ strOfFix e) := by
  constructor
  · intro pOk r w e hr
    constructor
    · cases pOk with
      | false => simpa [createReaction] using hr
      | true =>
        unfold createReaction
        by_cases hc : lowerStr w ∈ (regGet r (strOfFix e)).getD []
        · simpa [hc] using hr
        · simpa [hc] using noEmptyEntry_regSet hr (by simp)
    · cases pOk with
      | false => simpa [removeReaction] using hr
      | true =>
        unfold removeReaction
        cases hg : regGet r (strOfFix e) with
        | none => simpa [hg] using hr
        | some ws =>
          by_cases hc : lowerStr w ∈ ws
          · by_cases he : ws.erase (lowerStr w) = []
            · simpa [hg, hc, he] using noEmptyEntry_regDel hr
            · simpa [hg, hc, he] using noEmptyEntry_regSet hr he
          · simpa [hg, hc] using hr
  · intro r w e hg pr hpr
    have hrm : removeReaction true r w e = (regDel r (strOfFix e), .removed) := by
      unfold removeReaction
      simp only [Bool.not_true, Bool.false_eq_true, if_false, hg]
      simp
    rw [hrm] at hpr
    rcases List.mem_flatMap.mp hpr with ⟨p, hp, hmem⟩
    rcases List.mem_map.mp hmem with ⟨w2, -, rfl⟩
    have := List.of_mem_filter hp
    simpa using this

/-- Witness for claim C5 at a concrete input. -/
theorem no_empty_word_sets_witness :
    noEmptyEntry (createReaction true [] (codes "Pizza") (.literal (codes "🍕"))).1 ∧
    ∀ pr ∈ listTriggers
        (removeReaction true [(codes "🍕", [codes "pizza"]), (codes "🎉", [codes "party"])]
          (codes "Pizza") (.literal (codes "🍕"))).1,
      pr.1 ≠ codes "🍕" :=
  ⟨(no_empty_word_sets.1 true [] (codes "Pizza") (.literal (codes "🍕"))
      (by intro p hp; simp at hp)).1,
   no_empty_word_sets.2 [(codes "🍕", [codes "pizza"]), (codes "🎉", [codes "party"])]
     (codes "Pizza") (.literal (codes "🍕")) (by decide)⟩

/-- Keys of the registry are pairwise distinct (a Python dict cannot hold
a key twice). -/
def keysNodup (r : Registry) : Prop := (r.map (·.1)).Nodup

/-- Number of occurrences of `a` in a list (used to state "exactly once"). -/
def countOcc {α : Type} [DecidableEq α] (a : α) : List α → Nat
  | [] => 0
  | b :: l => (if b = a then 1 else 0) + countOcc a l

theorem countOcc_append {α : Type} [DecidableEq α] (a : α) :
    ∀ l1 l2 : List α, countOcc a (l1 ++ l2) = countOcc a l1 + countOcc a l2 := by
  intro l1 l2
  induction l1 with
  | nil => simp [countOcc]
  | cons b l ih => simp [countOcc, ih]; omega

theorem countOcc_eq_zero {α : Type} [DecidableEq α] {a : α} :
    ∀ {l : List α}, a ∉ l → countOcc a l = 0 := by
  intro l
  induction l with
  | nil => intro _; rfl
  | cons b l ih =>
    intro h
    have hb : b ≠ a := fun hba => h (by rw [hba]; exact List.mem_cons_self _ _)
    have hl : a ∉ l := fun hm => h (List.mem_cons_of_mem _ hm)
    simp [countOcc, hb, ih hl]

theorem countOcc_nodup_mem {α : Type} [DecidableEq α] {a : α} :
    ∀ {l : List α}, l.Nodup → a ∈ l → countOcc a l = 1 := by
  intro l
  induction l with
  | nil => intro _ h; exact absurd h (by simp)
  | cons b l ih =>
    intro hn hm
    rcases List.mem_cons.mp hm with hm | hm
    · subst hm
      have hnl : a ∉ l := (List.nodup_cons.mp hn).1
      simp [countOcc, countOcc_eq_zero hnl]
    · have hb : b ≠ a := by
        intro hba
        exact (List.nodup_cons.mp hn).1 (hba ▸ hm)
      simp [countOcc, hb, ih (List.nodup_cons.mp hn).2 hm]

theorem countOcc_pair_map (e' w : Str) :
    ∀ ws : List Str, countOcc (e', w) (ws.map (fun w2 => (e', w2))) = countOcc w ws := by
  intro ws
  induction ws with
  | nil => rfl
  | cons b l ih => simp [countOcc, ih, Prod.ext_iff]

theorem regGet_mem {r : Registry} {e : Str} {ws : List Str}
    (h : regGet r e = some ws) : (e, ws) ∈ r := by
  unfold regGet at h
  cases hf : r.find? (fun p => p.1 == e) with
  | none => rw [hf] at h; exact absurd h (by simp)
  | some p =>
    rw [hf] at h
    simp at h
    have hpe : p.1 = e := by simpa using List.find?_some hf
    have hm : p ∈ r := List.mem_of_find?_eq_some hf
    have hp : p = (e, ws) := by
      cases p with
      | mk a b =>
        simp only at hpe h
        rw [hpe, h]
    rw [← hp]; exact hm

theorem countOcc_listTriggers_zero {e w : Str} :
    ∀ r : Registry, (∀ p ∈ r, p.1 ≠ e) → countOcc (e, w) (listTriggers r) = 0 := by
  intro r hr
  apply countOcc_eq_zero
  intro hmem
  rcases List.mem_flatMap.mp hmem with ⟨p, hp, hm⟩
  rcases List.mem_map.mp hm with ⟨w2, -, heq⟩
  exact hr p hp (congrArg Prod.fst heq)

theorem countOcc_listTriggers {e w : Str} :
    ∀ r : Registry, keysNodup r →
      countOcc (e, w) (listTriggers r) = countOcc w ((regGet r e).getD []) := by
  intro r
  induction r with
  | nil => intro _; simp [listTriggers, regGet, countOcc]
  | cons q rest ih =>
    intro hk
    obtain ⟨e', ws'⟩ := q
    have hk' : keysNodup rest := by
      simpa [keysNodup] using (List.nodup_cons.mp (by simpa [keysNodup] using hk)).2
    have hnotin : e' ∉ rest.map (·.1) :=
      (List.nodup_cons.mp (by simpa [keysNodup] using hk)).1
    have hsplit : listTriggers ((e', ws') :: rest) =
        ws'.map (fun w2 => (e', w2)) ++ listTriggers rest := by
      simp [listTriggers]
    rw [hsplit, countOcc_append]
    by_cases he : e' = e
    · subst he
      have hg : regGet ((e', ws') :: rest) e' = some ws' := by
        simp [regGet, List.find?]
      rw [hg]
      have h2 : countOcc (e', w) (listTriggers rest) = 0 := by
        apply countOcc_listTriggers_zero
        intro p hp hpe
        exact hnotin (List.mem_map.mpr ⟨p, hp, hpe⟩)
      rw [countOcc_pair_map, h2]
      simp
    · have he' : (e' == e) = false := by simpa using he
      have hg : regGet ((e', ws') :: rest) e = regGet rest e := by
        simp [regGet, List.find?, he']
      have h1 : countOcc (e, w) (ws'.map (fun w2 => (e', w2))) = 0 := by
        apply countOcc_eq_zero
        intro hmem
        rcases List.mem_map.mp hmem with ⟨w2, -, heq⟩
        exact he (congrArg Prod.fst heq)
      rw [hg, h1, ih hk']
      simp

theorem regGet_regSet {e : Str} {v : List Str} :
    ∀ r : Registry, regGet (regSet r e v) e = some v := by
  intro r
  unfold regSet
  by_cases ha : r.any (fun p => p.1 == e) = true
  · rw [if_pos ha]
    induction r with
    | nil => simp at ha
    | cons p rest ih =>
      by_cases hp : (p.1 == e) = true
      · simp [regGet, List.find?, hp]
      · have ha' : rest.any (fun p => p.1 == e) = true := by
          rcases List.any_eq_true.mp ha with ⟨q, hq, hqe⟩
          rcases List.mem_cons.mp hq with hq | hq
          · subst hq; exact absurd hqe hp
          · exact List.any_eq_true.mpr ⟨q, hq, hqe⟩
        have hp' : (p.1 == e) = false := by
          cases hb : (p.1 == e) with
          | false => rfl
          | true => exact absurd hb hp
        simpa [regGet, List.find?, hp'] using ih ha'
  · rw [if_neg ha]
    simp only [Bool.not_eq_true] at ha
    induction r with
    | nil => simp [regGet, List.find?]
    | cons p rest ih =>
      have hp : (p.1 == e) = false := by
        cases hb : (p.1 == e) with
        | false => rfl
        | true =>
          rw [List.any_cons, hb, Bool.true_or] at ha
          exact absurd ha (by simp)
      have ha' : rest.any (fun p => p.1 == e) = false := by
        rw [List.any_cons, hp, Bool.false_or] at ha
        exact ha
      simpa [regGet, List.find?, hp] using ih ha'

theorem keysNodup_regSet {r : Registry} {e : Str} {v : List Str}
    (hr : keysNodup r) : keysNodup (regSet r e v) := by
  unfold regSet
  by_cases ha : r.any (fun p => p.1 == e) = true
  · rw [if_pos ha]
    have hkeys : (r.map (fun p => if p.1 == e then (e, v) else p)).map (·.1) = r.map (·.1) := by
      rw [List.map_map]
      apply List.map_congr_left
      intro p _
      by_cases hp : (p.1 == e) = true
      · simp only [Function.comp, hp, if_true]
        exact (by simpa using hp : p.1 = e).symm
      · simp only [Function.comp, hp, Bool.false_eq_true, if_false]
    unfold keysNodup
    rw [hkeys]
    exact hr
  · rw [if_neg ha]
    simp only [Bool.not_eq_true] at ha
    have hnotin : e ∉ r.map (·.1) := by
      intro hmem
      rcases List.mem_map.mp hmem with ⟨p, hp, hpe⟩
      have hany : r.any (fun q => q.1 == e) = true := by
        refine List.any_eq_true.mpr ⟨p, hp, ?_⟩
        simpa using hpe
      rw [ha] at hany
      exact absurd hany (by simp)
    unfold keysNodup
    rw [List.map_append, List.nodup_append]
    refine ⟨hr, by simp, ?_⟩
    intro a hma hmb
    simp at hmb
    rw [hmb] at hma
    exact hnotin hma

/-- Claim C6: `addreact` is idempotent.  Adding an (emoji, word) pair
that is already stored (word compared lower-cased) replies AlreadyExists
and leaves the persisted registry unchanged, and for every starting
registry with dict-like keys and duplicate-free word lists, after calling
the add operation twice the listing contains the pair exactly once. -/
theorem addreact_idempotent :
    (∀ (r : Registry) (w : Str) (e : FixResult),
       lowerStr w ∈ (regGet r (strOfFix e)).getD [] →
       createReaction true r w e = (r, .alreadyExists)) ∧
    (∀ (r : Registry) (w : Str) (e : FixResult),
       keysNodup r → (∀ p ∈ r, p.2.Nodup) →
       countOcc (strOfFix e, lowerStr w)
         (listTriggers (createReaction true (createReaction true r w e).1 w e).1) = 1) := by
  constructor
  · intro r w e h
    unfold createReaction
    simp [h]
  · intro r w e hk hwn
    by_cases hc : lowerStr w ∈ (regGet r (strOfFix e)).getD []
    · have h1 : createReaction true r w e = (r, .alreadyExists) := by
        unfold createReaction; simp [hc]
      rw [h1]
      show countOcc (strOfFix e, lowerStr w) (listTriggers (createReaction true r w e).1) = 1
      rw [h1]
      show countOcc (strOfFix e, lowerStr w) (listTriggers r) = 1
      cases hg : regGet r (strOfFix e) with
      | none => rw [hg] at hc; simp at hc
      | some ws =>
        have hws : ws.Nodup := hwn _ (regGet_mem hg)
        have hmem : lowerStr w ∈ ws := by rw [hg] at hc; simpa using hc
        rw [countOcc_listTriggers r hk, hg]
        simpa using countOcc_nodup_mem hws hmem
    · have h1 : createReaction true r w e =
          (regSet r (strOfFix e) ((regGet r (strOfFix e)).getD [] ++ [lowerStr w]),
            .added) := by
        unfold createReaction; simp [hc]
      have hg2 : regGet (regSet r (strOfFix e) ((regGet r (strOfFix e)).getD [] ++
          [lowerStr w])) (strOfFix e) =
          some ((regGet r (strOfFix e)).getD [] ++ [lowerStr w]) := regGet_regSet r
      have hk2 : keysNodup (regSet r (strOfFix e)
          ((regGet r (strOfFix e)).getD [] ++ [lowerStr w])) := keysNodup_regSet hk
      have h2 : createReaction true (regSet r (strOfFix e)
          ((regGet r (strOfFix e)).getD [] ++ [lowerStr w])) w e =
          (regSet r (strOfFix e) ((regGet r (strOfFix e)).getD [] ++ [lowerStr w]),
            .alreadyExists) := by
        unfold createReaction; simp [hg2]
      rw [h1]
      show countOcc (strOfFix e, lowerStr w)
        (listTriggers (createReaction true (regSet r (strOfFix e)
          ((regGet r (strOfFix e)).getD [] ++ [lowerStr w])) w e).1) = 1
      rw [h2]
      show countOcc (strOfFix e, lowerStr w)
        (listTriggers (regSet r (strOfFix e)
          ((regGet r (strOfFix e)).getD [] ++ [lowerStr w]))) = 1
      rw [countOcc_listTriggers _ hk2, hg2]
      show countOcc (lowerStr w) ((regGet r (strOfFix e)).getD [] ++ [lowerStr w]) = 1
      rw [countOcc_append, countOcc_eq_zero hc]
      simp [countOcc]

/-- Witness for claim C6 at a concrete input. -/
theorem addreact_idempotent_witness :
    countOcc (codes "🍕", codes "pizza")
      (listTriggers (createReaction true
        (createReaction true [] (codes "Pizza") (.literal (codes "🍕"))).1
        (codes "Pizza") (.literal (codes "🍕"))).1) = 1 :=
  addreact_idempotent.2 [] (codes "Pizza") (.literal (codes "🍕"))
    (by simp [keysNodup]) (by simp)

/-- ASCII case folding never moves a character across the word/non-word
divide. -/
theorem isWordCharA_foldA (c : Nat) : isWordCharA (foldA c) = isWordCharA c := by
  unfold foldA isWordCharA
  split
  · simp only [decide_eq_decide]
    omega
  · rfl

theorem foldA_eq_of_occursAt {w t : Str} {i j : Nat} (h : occursAt w t i = true)
    (hj : j < w.length) :
    foldA (t.getD (i + j) 0) = foldA (w.getD j 0) := by
  unfold occursAt at h
  rw [Bool.and_eq_true] at h
  obtain ⟨hlen, heq⟩ := h
  rw [decide_eq_true_iff] at hlen
  rw [beq_iff_eq] at heq
  have hij : i + j < t.length := by omega
  have hmap := congrArg (fun l => l[j]?) heq
  simp only [lowerStr, List.getElem?_map] at hmap
  have htake : ((t.drop i).take w.length)[j]? = (t.drop i)[j]? := by
    rw [List.getElem?_take]; simp [hj]
  have hdrop : (t.drop i)[j]? = t[i + j]? := List.getElem?_drop t i j
  rw [htake, hdrop] at hmap
  rw [List.getElem?_eq_getElem hij, List.getElem?_eq_getElem hj] at hmap
  simp only [Option.map_some'] at hmap
  have hmv : foldA t[i + j] = foldA w[j] := by injection hmap
  simp only [List.getD_eq_getElem?_getD, List.getElem?_eq_getElem hij,
    List.getElem?_eq_getElem hj, Option.getD_some]
  exact hmv

/-- A character inside a case-insensitive occurrence of `w` is a word
character exactly when the corresponding character of `w` is. -/
theorem wordAt_of_occursAt {w t : Str} {i j : Nat} (h : occursAt w t i = true)
    (hj : j < w.length) :
    wordAt t (i + j) = isWordCharA (w.getD j 0) := by
  unfold wordAt
  rw [← isWordCharA_foldA (t.getD (i + j) 0), foldA_eq_of_occursAt h hj, isWordCharA_foldA]

/-- Claim C1 (amended): for trigger words whose first and last characters
are word characters, the pattern `\b{re.escape(word)}\b` of `get_pattern`
fires on an occurrence exactly when the occurrence is delimited by
non-word characters or string edges on both sides; comparison ignores
case and the word is matched literally.  In particular stored `"pizza"`
does not match `"pizzazz"` and does match `"PIZZA time"`. -/
theorem whole_word_boundary :
    (∀ (w t : Str) (i : Nat), w ≠ [] →
       isWordCharA (w.getD 0 0) = true →
       isWordCharA (w.getD (w.length - 1) 0) = true →
       matchAt w t i = delimitedAt w t i) ∧
    searchWord (codes "pizza") (codes "pizzazz") = false ∧
    searchWord (codes "pizza") (codes "PIZZA time") = true := by
  refine ⟨?_, by decide, by decide⟩
  intro w t i hw h0 hl
  cases ho : occursAt w t i with
  | false => unfold matchAt delimitedAt; rw [ho]; simp
  | true =>
    have hwl : 0 < w.length := List.length_pos.mpr hw
    have hA : wordAt t i = true := by
      have hx := wordAt_of_occursAt ho hwl
      rw [Nat.add_zero] at hx
      rw [hx, h0]
    have hilen : i + (w.length - 1) = i + w.length - 1 := by omega
    have hB : wordAt t (i + w.length - 1) = true := by
      have hx := wordAt_of_occursAt ho (by omega : w.length - 1 < w.length)
      rw [hilen] at hx
      rw [hx, hl]
    unfold matchAt delimitedAt boundaryAt
    rw [ho, hA]
    have hiw0 : ¬(i + w.length = 0) := by omega
    rw [if_neg hiw0, hB]
    by_cases h0i : i = 0
    · rw [if_pos h0i, if_pos h0i]
      cases wordAt t (i + w.length) <;> simp
    · rw [if_neg h0i, if_neg h0i]
      cases wordAt t (i - 1) <;> cases wordAt t (i + w.length) <;> simp

/-- Counterexample to claim C1 as stated: for the trigger word `"!"` the
regex word-boundary anchors and the "delimited by non-word characters or
string edges" reading disagree — in text `"!"` the occurrence at
position 0 is edge-delimited on both sides, yet `\b!\b` does not match. -/
theorem whole_word_boundary_cx :
    ¬ (matchAt (codes "!") (codes "!") 0 = true ↔
       delimitedAt (codes "!") (codes "!") 0 = true) := by decide

/-- Witness for claim C1 at a concrete input. -/
theorem whole_word_boundary_witness :
    (codes "pizza" ≠ [] ∧ isWordCharA ((codes "pizza").getD 0 0) = true ∧
      isWordCharA ((codes "pizza").getD ((codes "pizza").length - 1) 0) = true) ∧
    matchAt (codes "pizza") (codes "I love pizza!") 7 =
      delimitedAt (codes "pizza") (codes "I love pizza!") 7 :=
  ⟨⟨by decide, by decide, by decide⟩,
   whole_word_boundary.1 (codes "pizza") (codes "I love pizza!") 7
     (by decide) (by decide) (by decide)⟩

end SelectiveReact
